import Mathlib

/-!
Verification development for the Rummikub solver engine
(src/RummikubSolverExpo/utils/rummikubSolver.ts).

The TypeScript class `RummikubSolver` is embedded shallowly: instance state
(`this.hand`, `this.score`) becomes explicit arguments and returned state,
JS numbers holding scores become `Int` (tile face numbers are `Nat`), and the
recursive methods become fuel-indexed Lean functions (the walk over face
values 1..n+1 is bounded, so any fuel of at least `maxTileValue + 1` is
exact; `solve` passes exactly that).
-/

namespace Rummikub

/-- `interface Tile` from the source. -/
structure Tile where
  id : String
  color : String
  number : Nat
  colorName : String
deriving DecidableEq, Repr

/-- `interface GameState` from the source. -/
structure GameState where
  handTiles : List Tile
  tableTiles : List Tile
deriving DecidableEq, Repr

/-- `interface SolverResult`; `maxScore` and `suggestedMoves` are optional
fields in the source, but `solve` always supplies both, so they are plain
fields here. -/
structure SolverResult where
  isSolvable : Bool
  reason : String
  maxScore : Int
  suggestedMoves : List String
deriving DecidableEq, Repr

/-- `this.suits` of class `RummikubSolver` (the suit palette, `k = 4`). -/
def suits : List String := ["Red", "Blue", "Yellow", "Black"]

/-- `this.n`, the maximum tile value (constructor default `n = 13`).
The constructor parameters `k` and `m` keep their defaults in every
claim-relevant call path (`solveRummikub` builds `new RummikubSolver()`),
and `m` is never read by the class at all. -/
def maxTileValue : Nat := 13

/-- `private countTiles(value, suit)`: tiles in `this.hand` with the given
face number and suit. -/
def countTiles (hand : List Tile) (value : Nat) (suit : String) : Nat :=
  (hand.filter fun t => t.number == value && t.color == suit).length

/-- `type RunState = 0 | 1 | 2 | 3` (3 stands for "3 or more").  Embedded as
`Nat`; every reachable state is ≤ 3, which the proofs track as an invariant. -/
abbrev RunState := Nat

/-- `interface RunConfiguration`. -/
structure RunConfiguration where
  runs : List RunState
  score : Int
deriving DecidableEq, Repr

/-- `private calculateNewRunLength`: 0 tiles end the run, otherwise the length
grows and saturates at 3. -/
def calculateNewRunLength (currentLength : RunState) (tilesUsed : Nat) : RunState :=
  if tilesUsed = 0 then 0 else min (currentLength + tilesUsed) 3

/-- `private calculateRunScore(length, endValue)`: the loop
`for (i = 0; i < length; i++) score += endValue - i`.  JS arithmetic can dip
below zero here (e.g. `endValue = 1`), so the sum lives in `Int`. -/
def calculateRunScore (length : RunState) (endValue : Nat) : Int :=
  if length < 3 then 0
  else (List.range length).foldl (fun s i => s + ((endValue : Int) - (i : Int))) 0

/-- `private calculateScoreIncrease(oldLength, newLength, value)`: the
three-rule transition scoring, first match wins. -/
def calculateScoreIncrease (oldLength newLength : RunState) (value : Nat) : Int :=
  if newLength = 0 ∧ 3 ≤ oldLength then
    calculateRunScore oldLength value
  else if 3 ≤ newLength ∧ oldLength < 3 then
    (value : Int) * ((newLength : Int) - (oldLength : Int))
  else if oldLength < newLength then
    (value : Int) * ((newLength : Int) - (oldLength : Int))
  else 0

/-- `private generateRunCombinations`: the per-suit loop
`for (tilesUsed = 0; tilesUsed <= maxTilesForSuit; tilesUsed++)` followed by
recursion on the next suit index, collecting one configuration per leaf.
The source walks `suitIndex` over two same-length arrays (`currentRuns` and
`maxTiles`, both of length `k`); the mismatched-length arms are unreachable. -/
def generateRunCombinations (value : Nat) :
    List RunState → List Nat → List RunConfiguration
  | [], _ => [⟨[], 0⟩]
  | _ :: _, [] => [⟨[], 0⟩]
  | cur :: curs, mx :: mxs =>
    (List.range (mx + 1)).flatMap fun tilesUsed =>
      let newLen := calculateNewRunLength cur tilesUsed
      let inc := calculateScoreIncrease cur newLen value
      (generateRunCombinations value curs mxs).map fun cfg =>
        ⟨newLen :: cfg.runs, inc + cfg.score⟩

/-- `private makeRuns(currentRuns, value)`. -/
def makeRuns (hand : List Tile) (currentRuns : List RunState) (value : Nat) :
    List RunConfiguration :=
  generateRunCombinations value currentRuns
    (suits.map fun s => countTiles hand value s)

/-- Helper for `firstDedup`: drop elements already seen. -/
def firstDedupAux [DecidableEq α] : List α → List α → List α
  | _, [] => []
  | seen, x :: xs =>
    if x ∈ seen then firstDedupAux seen xs
    else x :: firstDedupAux (x :: seen) xs

/-- JS object keys in insertion order, one occurrence each: the key list of
the `{ [key]: V[] }` dictionaries the source builds by pushing tiles. -/
def firstDedup [DecidableEq α] (l : List α) : List α := firstDedupAux [] l

/-- `private getCombinations(arr, size)`.  The source recurses with
`size - 1` and a head element at each index `i ≤ arr.length - size`; for
`size ≤ 0` the JS code would diverge, but every call site uses `size ≥ 1`,
so the `0` arm is unreachable (and returns `[]` here). -/
def getCombinations [Inhabited α] : List α → Nat → List (List α)
  | arr, 1 => arr.map fun item => [item]
  | _, 0 => []
  | arr, size + 2 =>
    (List.range (arr.length + 1 - (size + 2))).flatMap fun i =>
      (getCombinations (arr.drop (i + 1)) (size + 1)).map fun tail =>
        arr.getD i default :: tail

instance : Inhabited Tile := ⟨⟨"", "", 0, ""⟩⟩

/-- The group-assembly loop inside `findValidGroups`: for each color of the
combination, push `colorGroups[color][0]` (the first tile of that color)
when it exists. -/
def groupForCombo (tiles : List Tile) (combination : List String) : List Tile :=
  combination.flatMap fun c =>
    match (tiles.filter fun t => t.color == c).head? with
    | some t0 => [t0]
    | none => []

/-- `private findValidGroups(tiles)`: all `size ≥ 3` combinations of the
distinct colors present, taking the first tile of each color. -/
def findValidGroups (tiles : List Tile) : List (List Tile) :=
  if tiles.length < 3 then []
  else
    let uniqueColors := firstDedup (tiles.map (·.color))
    (List.range' 3 (uniqueColors.length + 1 - 3)).flatMap fun size =>
      (getCombinations uniqueColors size).filterMap fun combination =>
        let group := groupForCombo tiles combination
        if 3 ≤ group.length then some group else none

/-- `private calculateGroupScore(remainingTiles, value)`: group the tiles by
face number and add `validGroup[0].number * validGroup.length` for every
valid group of size ≥ 3.  The `value` parameter is unused by the source body
(grouping keys on `tile.number`).  JS iterates the numeric keys in ascending
order; the fold is a commutative sum, so iterating them in first-occurrence
order computes the same value. -/
def calculateGroupScore (remainingTiles : List Tile) (_value : Nat) : Nat :=
  let numbers := firstDedup (remainingTiles.map (·.number))
  numbers.foldl
    (fun acc n =>
      (findValidGroups (remainingTiles.filter fun t => t.number == n)).foldl
        (fun a g =>
          if 3 ≤ g.length then a + (g.headD default).number * g.length else a)
        acc)
    0

/-- `private getRemainingTiles(value, runs)`: per suit, the tiles of this
value beyond the one reserved when that suit's run state is positive. -/
def getRemainingTiles (hand : List Tile) (value : Nat) (runs : List RunState) :
    List Tile :=
  (suits.zip runs).flatMap fun p =>
    (hand.filter fun t => t.number == value && t.color == p.1).drop
      (if 0 < p.2 then 1 else 0)

/-- The source folds `Math.max` from `-Infinity` over the per-configuration
totals; `makeRuns` always yields at least one configuration, and on nonempty
lists that fold equals this one (the `[]` arm is unreachable from `solve`). -/
def jsMaxFold : List Int → Int
  | [] => 0
  | x :: xs => xs.foldl max x

/-- `private maxScore(value, runs)` with the memo table erased: the plain
recursion.  `fuel` only bounds the recursion depth; any `fuel ≥
maxTileValue + 1 - value` gives the exact value (`maxScoreGo_fuel` below). -/
def maxScoreGo (hand : List Tile) : Nat → Nat → List RunState → Int
  | 0, _, _ => 0
  | fuel + 1, value, runs =>
    if maxTileValue < value then 0
    else
      jsMaxFold ((makeRuns hand runs value).map fun cfg =>
        (calculateGroupScore (getRemainingTiles hand value cfg.runs) value : Int)
          + cfg.score + maxScoreGo hand fuel (value + 1) cfg.runs)

/-- `this.score`, the memo table: `Map<string, number>` keyed by the string
`value + "-" + runs.join(",")`.  That key is injective on (value, runs)
pairs (the dash separates the decimal value from the comma-joined states),
so the table is embedded keyed directly by the pair. -/
abbrev Memo := List ((Nat × List RunState) × Int)

/-- `this.score.get` / `this.score.has` combined. -/
def memoLookup (key : Nat × List RunState) : Memo → Option Int
  | [] => none
  | (k, v) :: rest => if k = key then some v else memoLookup key rest

/-- The body of the source's `for (const config of runConfigurations)` loop:
the per-configuration totals in order, threading the memo table through the
recursive calls (`next` is the recursion into `value + 1`). -/
def scoreConfigs (hand : List Tile) (value : Nat)
    (next : List RunState → Memo → Int × Memo) :
    List RunConfiguration → Memo → List Int × Memo
  | [], memo => ([], memo)
  | cfg :: rest, memo =>
    let fut := next cfg.runs memo
    let total :=
      (calculateGroupScore (getRemainingTiles hand value cfg.runs) value : Int)
        + cfg.score + fut.1
    let restRes := scoreConfigs hand value next rest fut.2
    (total :: restRes.1, restRes.2)

/-- `private maxScore(value, runs)` with the memo table threaded explicitly:
look the key up, otherwise score every configuration (recursing on
`value + 1` left to right, exactly the source's loop order), fold `Math.max`,
and store the result under the key. -/
def maxScoreM (hand : List Tile) : Nat → Nat → List RunState → Memo → Int × Memo
  | 0, _, _, memo => (0, memo)
  | fuel + 1, value, runs, memo =>
    if maxTileValue < value then (0, memo)
    else
      match memoLookup (value, runs) memo with
      | some s => (s, memo)
      | none =>
        let res := scoreConfigs hand value
          (fun r m => maxScoreM hand fuel (value + 1) r m)
          (makeRuns hand runs value) memo
        let best := jsMaxFold res.1
        (best, ((value, runs), best) :: res.2)

/-- `totalTileValue` in `solve`: `this.hand.reduce((sum, t) => sum + t.number, 0)`. -/
def totalTileValue (hand : List Tile) : Nat :=
  hand.foldl (fun sum t => sum + t.number) 0

/-- Stable ascending insertion used to model `colorTiles.sort((a, b) =>
a.number - b.number)` (JS `Array.prototype.sort` is stable). -/
def insertByNumber (t : Tile) : List Tile → List Tile
  | [] => [t]
  | x :: xs => if x.number ≤ t.number then x :: insertByNumber t xs else t :: x :: xs

/-- Stable sort by face number. -/
def sortByNumber (l : List Tile) : List Tile := l.foldr insertByNumber []

/-- The accumulation loop inside `private findRuns`: keep extending
`currentRun` while the numbers are consecutive, emitting completed runs of
length ≥ 3. -/
def runScan : List Tile → List Tile → List (List Tile)
  | [], currentRun => if 3 ≤ currentRun.length then [currentRun] else []
  | t :: ts, currentRun =>
    let extends_ : Bool :=
      match currentRun.getLast? with
      | none => true
      | some last => t.number == last.number + 1
    if extends_ then runScan ts (currentRun ++ [t])
    else
      (if 3 ≤ currentRun.length then [currentRun] else []) ++ runScan ts [t]

/-- `private findRuns(tiles)`: group by color (insertion order of first
occurrence, as JS string keys iterate), sort each color ascending by number,
scan for maximal consecutive stretches of length ≥ 3. -/
def findRuns (tiles : List Tile) : List (List Tile) :=
  (firstDedup (tiles.map (·.color))).flatMap fun c =>
    runScan (sortByNumber (tiles.filter fun t => t.color == c)) []

/-- `private findGroups(tiles)`: group by number and collect the valid
distinct-color groups.  JS iterates numeric object keys ascending; the
first-occurrence order used here yields the same list up to the order of
different numbers' blocks, which no claim observes (suggestions are compared
only for equality between identically-computed results). -/
def findGroups (tiles : List Tile) : List (List Tile) :=
  (firstDedup (tiles.map (·.number))).flatMap fun n =>
    findValidGroups (tiles.filter fun t => t.number == n)

/-- `private generateMoveSuggestions()`: up to five formatted runs/groups. -/
def generateMoveSuggestions (hand : List Tile) : List String :=
  (((findRuns hand).map fun run =>
      "Run: " ++ String.intercalate ", "
        (run.map fun t => t.colorName ++ " " ++ toString t.number)) ++
    ((findGroups hand).map fun group =>
      "Group: " ++ String.intercalate ", "
        (group.map fun t => t.colorName ++ " " ++ toString t.number))).take 5

/-- The instance state of class `RummikubSolver` that survives between
calls: `this.score` and `this.hand` (`n`, `k`, `m`, `suits` are constants). -/
structure SolverInstance where
  score : Memo
  hand : List Tile
deriving Repr

/-- `public solve(gameState)`: merge hand and table into `this.hand`, clear
`this.score`, run the memoized walk from value 1 with all runs at 0, and
assemble the result.  The 80% threshold test `maxScore >= totalTileValue *
0.8` is a JS double comparison of two integer-valued quantities; over the
rationals `ms ≥ total * (4/5)` holds exactly when `5 * ms ≥ 4 * total`, and
for integers in the engine's range the double computation of `total * 0.8`
agrees with the exact rational comparison (its rounding error is far below
the distance to the nearest integer crossing), so the test is embedded as
the integer comparison `4 * total ≤ 5 * ms`.  Returns the result together
with the instance state left behind. -/
def solveImpl (inst : SolverInstance) (gameState : GameState) :
    SolverResult × SolverInstance :=
  let _ := inst
  let hand := gameState.handTiles ++ gameState.tableTiles
  let res := maxScoreM hand (maxTileValue + 1) 1 [0, 0, 0, 0] []
  let ms := res.1
  let total := totalTileValue hand
  let solvable : Bool := decide (4 * (total : Int) ≤ 5 * ms)
  (⟨solvable,
    if solvable then
      "Found solution with score " ++ toString ms ++ " out of "
        ++ toString total ++ " possible"
    else
      "No valid solution found. Max score: " ++ toString ms,
    ms,
    generateMoveSuggestions hand⟩,
   ⟨res.2, hand⟩)

/-- `export function solveRummikub(gameState)`: a fresh instance, then
`solve`. -/
def solveRummikub (gameState : GameState) : SolverResult :=
  (solveImpl ⟨[], []⟩ gameState).1

/-! ### Specification-side definitions

`comboWeight` is not part of the source; it is the closed combinatorial
form that `calculateGroupScore` is proved to compute on the tiles of one
face value: summing `setSize` over all combinations of `size ≥ 3` of the
`c` distinct suits present contributes `C(c, s) · s` for each size `s`. -/

/-- `Σ_{s = 3}^{c} C(c, s) · s`. -/
def comboWeight (c : Nat) : Nat :=
  ((List.range' 3 (c + 1 - 3)).map fun s => c.choose s * s).sum

/-- Concrete tiles used by witnesses and counterexamples. -/
def redFive : Tile := ⟨"red-5", "Red", 5, "Red"⟩

def redSix : Tile := ⟨"red-6", "Red", 6, "Red"⟩

def redSeven : Tile := ⟨"red-7", "Red", 7, "Red"⟩

def blueFive : Tile := ⟨"blue-5", "Blue", 5, "Blue"⟩

def yellowFive : Tile := ⟨"yellow-5", "Yellow", 5, "Yellow"⟩

def blackFive : Tile := ⟨"black-5", "Black", 5, "Black"⟩

/-- A wildcard/joker: face number 0. -/
def redJoker : Tile := ⟨"red-joker", "Red", 0, "Red"⟩

/-- The `{Red 5, Red 6, Red 7}` hand of the spec's run test. -/
def runHand : GameState := ⟨[redFive, redSix, redSeven], []⟩

/-- The `{Red 5, Blue 5, Yellow 5, Black 5}` hand of the spec's group test. -/
def groupHand : GameState := ⟨[redFive, blueFive, yellowFive, blackFive], []⟩

/-- The plain recursion at its canonical (exactly sufficient) fuel. -/
def maxScorePure (hand : List Tile) (value : Nat) (runs : List RunState) : Int :=
  maxScoreGo hand (maxTileValue + 1 - value) value runs

/-- Memo-table soundness: every entry stores the plain-recursion value of its
key, and no key occurs twice. -/
def MemoOK (hand : List Tile) (memo : Memo) : Prop :=
  (∀ e ∈ memo, e.2 = maxScorePure hand e.1.1 e.1.2) ∧ (memo.map Prod.fst).Nodup

/-! ### Lemmas: the max fold -/

lemma foldl_max_init (a : Int) (l : List Int) : a ≤ l.foldl max a := by
  induction l generalizing a with
  | nil => exact le_refl a
  | cons x xs ih => exact le_trans (le_max_left a x) (ih (max a x))

lemma foldl_max_of_mem {x : Int} {l : List Int} (a : Int) (h : x ∈ l) :
    x ≤ l.foldl max a := by
  induction l generalizing a with
  | nil => cases h
  | cons y ys ih =>
    rcases List.mem_cons.mp h with rfl | hmem
    · exact le_trans (le_max_right a x) (foldl_max_init _ _)
    · exact ih (max a y) hmem

lemma foldl_max_le {a B : Int} {l : List Int} (ha : a ≤ B)
    (h : ∀ x ∈ l, x ≤ B) : l.foldl max a ≤ B := by
  induction l generalizing a with
  | nil => exact ha
  | cons y ys ih =>
    exact ih (max_le ha (h y (List.mem_cons_self y ys)))
      fun x hx => h x (List.mem_cons_of_mem y hx)

lemma le_jsMaxFold {x : Int} {l : List Int} (h : x ∈ l) : x ≤ jsMaxFold l := by
  cases l with
  | nil => cases h
  | cons a as =>
    rcases List.mem_cons.mp h with rfl | hmem
    · exact foldl_max_init x as
    · exact foldl_max_of_mem a hmem

lemma jsMaxFold_le {l : List Int} {B : Int} (hne : l ≠ [])
    (h : ∀ x ∈ l, x ≤ B) : jsMaxFold l ≤ B := by
  cases l with
  | nil => exact absurd rfl hne
  | cons a as =>
    exact foldl_max_le (h a (List.mem_cons_self a as))
      fun x hx => h x (List.mem_cons_of_mem a hx)

/-! ### Lemmas: transition scoring -/

lemma calculateRunScore_three (v : Nat) :
    calculateRunScore 3 v = (v : Int) + ((v : Int) - 1) + ((v : Int) - 2) := by
  show (if 3 < 3 then (0 : Int) else _) = _
  norm_num [List.range_succ]

lemma calculateNewRunLength_le_three (cur used : Nat) :
    calculateNewRunLength cur used ≤ 3 := by
  unfold calculateNewRunLength
  split
  · exact Nat.zero_le 3
  · exact min_le_right _ 3

lemma calculateScoreIncrease_nonneg {old : RunState} (new : RunState)
    {v : Nat} (hold : old ≤ 3) (hv : 1 ≤ v) :
    0 ≤ calculateScoreIncrease old new v := by
  unfold calculateScoreIncrease
  split
  · next hc =>
    have : old = 3 := le_antisymm hold hc.2
    subst this
    rw [calculateRunScore_three]
    have : (1 : Int) ≤ (v : Int) := by exact_mod_cast hv
    omega
  · split
    · next hc =>
      have : (old : Int) < (new : Int) := by
        exact_mod_cast lt_of_lt_of_le hc.2 hc.1
      have hv' : (0 : Int) ≤ (v : Int) := Int.natCast_nonneg v
      nlinarith
    · split
      · next hc =>
        have : (old : Int) < (new : Int) := by exact_mod_cast hc
        have hv' : (0 : Int) ≤ (v : Int) := Int.natCast_nonneg v
        nlinarith
      · exact le_refl 0

/-! ### Lemmas: configuration enumeration -/

lemma generateRunCombinations_mem_exists (value : Nat)
    (curs : List RunState) (mxs : List Nat) :
    ∃ cfg, cfg ∈ generateRunCombinations value curs mxs := by
  induction curs generalizing mxs with
  | nil => exact ⟨⟨[], 0⟩, by simp [generateRunCombinations]⟩
  | cons c cs ih =>
    cases mxs with
    | nil => exact ⟨⟨[], 0⟩, by simp [generateRunCombinations]⟩
    | cons m ms =>
      obtain ⟨cfg, hcfg⟩ := ih ms
      refine ⟨⟨calculateNewRunLength c 0 :: cfg.runs,
        calculateScoreIncrease c (calculateNewRunLength c 0) value + cfg.score⟩, ?_⟩
      simp only [generateRunCombinations, List.mem_flatMap, List.mem_map]
      exact ⟨0, by simp, cfg, hcfg, rfl⟩

lemma generateRunCombinations_ne_nil (value : Nat)
    (curs : List RunState) (mxs : List Nat) :
    generateRunCombinations value curs mxs ≠ [] := by
  obtain ⟨cfg, hcfg⟩ := generateRunCombinations_mem_exists value curs mxs
  exact List.ne_nil_of_mem hcfg

lemma makeRuns_ne_nil (hand : List Tile) (runs : List RunState) (value : Nat) :
    makeRuns hand runs value ≠ [] :=
  generateRunCombinations_ne_nil _ _ _

lemma mem_generateRunCombinations_props {value : Nat}
    {curs : List RunState} {mxs : List Nat} {cfg : RunConfiguration}
    (hmem : cfg ∈ generateRunCombinations value curs mxs)
    (hcurs : ∀ r ∈ curs, r ≤ 3) (hv : 1 ≤ value) :
    (∀ r ∈ cfg.runs, r ≤ 3) ∧ 0 ≤ cfg.score := by
  induction curs generalizing mxs cfg with
  | nil =>
    simp only [generateRunCombinations, List.mem_singleton] at hmem
    subst hmem
    exact ⟨by simp, le_refl 0⟩
  | cons c cs ih =>
    cases mxs with
    | nil =>
      simp only [generateRunCombinations, List.mem_singleton] at hmem
      subst hmem
      exact ⟨by simp, le_refl 0⟩
    | cons m ms =>
      simp only [generateRunCombinations, List.mem_flatMap, List.mem_map] at hmem
      obtain ⟨used, _, sub, hsub, rfl⟩ := hmem
      have hc : c ≤ 3 := hcurs c (List.mem_cons_self c cs)
      obtain ⟨hruns, hscore⟩ :=
        ih hsub (fun r hr => hcurs r (List.mem_cons_of_mem c hr))
      constructor
      · intro r hr
        rcases List.mem_cons.mp hr with rfl | hr'
        · exact calculateNewRunLength_le_three c used
        · exact hruns r hr'
      · exact add_nonneg (calculateScoreIncrease_nonneg _ hc hv) hscore

lemma mem_generateRunCombinations_mono {value : Nat} {mxs mxs' : List Nat}
    (hm : List.Forall₂ (· ≤ ·) mxs mxs') :
    ∀ (curs : List RunState) (cfg : RunConfiguration),
      cfg ∈ generateRunCombinations value curs mxs →
      cfg ∈ generateRunCombinations value curs mxs' := by
  induction hm with
  | nil => exact fun curs cfg h => h
  | @cons m m' ms ms' hmm _ ih =>
    intro curs cfg hmem
    cases curs with
    | nil => exact hmem
    | cons c cs =>
      simp only [generateRunCombinations, List.mem_flatMap, List.mem_map,
        List.mem_range] at hmem ⊢
      obtain ⟨used, hused, sub, hsub, rfl⟩ := hmem
      exact ⟨used, lt_of_lt_of_le hused (Nat.succ_le_succ hmm),
        sub, ih cs sub hsub, rfl⟩

/-! ### Lemmas: first-occurrence deduplication -/

lemma mem_firstDedupAux [DecidableEq α] {a : α} :
    ∀ (seen l : List α), a ∈ firstDedupAux seen l ↔ a ∈ l ∧ a ∉ seen := by
  intro seen l
  induction l generalizing seen with
  | nil => simp [firstDedupAux]
  | cons x xs ih =>
    by_cases hx : x ∈ seen
    · simp only [firstDedupAux, if_pos hx, ih, List.mem_cons]
      constructor
      · exact fun ⟨h1, h2⟩ => ⟨Or.inr h1, h2⟩
      · rintro ⟨rfl | h1, h2⟩
        · exact absurd hx h2
        · exact ⟨h1, h2⟩
    · simp only [firstDedupAux, if_neg hx, List.mem_cons, ih]
      constructor
      · rintro (rfl | ⟨h1, h2⟩)
        · exact ⟨Or.inl rfl, hx⟩
        · exact ⟨Or.inr h1, fun hs => h2 (Or.inr hs)⟩
      · rintro ⟨rfl | h1, h2⟩
        · exact Or.inl rfl
        · by_cases hax : a = x
          · exact Or.inl hax
          · exact Or.inr ⟨h1, by simp [List.mem_cons, hax, h2]⟩

lemma mem_firstDedup [DecidableEq α] {a : α} {l : List α} :
    a ∈ firstDedup l ↔ a ∈ l := by
  simp [firstDedup, mem_firstDedupAux]

lemma firstDedupAux_length [DecidableEq α] :
    ∀ (seen l : List α),
      (firstDedupAux seen l).length = (l.toFinset \ seen.toFinset).card := by
  intro seen l
  induction l generalizing seen with
  | nil => simp [firstDedupAux]
  | cons x xs ih =>
    by_cases hx : x ∈ seen
    · rw [firstDedupAux, if_pos hx, ih]
      congr 1
      rw [List.toFinset_cons, Finset.insert_sdiff_of_mem _ (by simpa using hx)]
    · rw [firstDedupAux, if_neg hx, List.length_cons, ih]
      have hxs : x ∉ seen.toFinset := by simpa using hx
      rw [List.toFinset_cons, List.toFinset_cons,
        Finset.insert_sdiff_of_not_mem _ hxs, Finset.sdiff_insert]
      by_cases hA : x ∈ xs.toFinset \ seen.toFinset
      · rw [Finset.insert_eq_self.mpr hA, Finset.card_erase_of_mem hA]
        have hpos : 0 < (xs.toFinset \ seen.toFinset).card :=
          Finset.card_pos.mpr ⟨x, hA⟩
        omega
      · rw [Finset.card_insert_of_not_mem hA, Finset.erase_eq_of_not_mem hA]

lemma firstDedup_length_card [DecidableEq α] (l : List α) :
    (firstDedup l).length = l.toFinset.card := by
  rw [firstDedup, firstDedupAux_length]
  simp

lemma firstDedup_length_le [DecidableEq α] (l : List α) :
    (firstDedup l).length ≤ l.length := by
  rw [firstDedup_length_card]
  exact l.toFinset_card_le

lemma firstDedupAux_eq_nil [DecidableEq α] :
    ∀ (seen l : List α), (∀ a ∈ l, a ∈ seen) → firstDedupAux seen l = [] := by
  intro seen l
  induction l generalizing seen with
  | nil => intro _; rfl
  | cons x xs ih =>
    intro h
    rw [firstDedupAux, if_pos (h x (List.mem_cons_self x xs))]
    exact ih seen fun a ha => h a (List.mem_cons_of_mem x ha)

lemma firstDedup_uniform [DecidableEq α] {l : List α} {v : α}
    (hne : l ≠ []) (h : ∀ a ∈ l, a = v) : firstDedup l = [v] := by
  cases l with
  | nil => exact absurd rfl hne
  | cons x xs =>
    have hx : x = v := h x (List.mem_cons_self x xs)
    subst hx
    rw [firstDedup, firstDedupAux, if_neg (List.not_mem_nil x)]
    rw [firstDedupAux_eq_nil [x] xs
      fun a ha => by rw [h a (List.mem_cons_of_mem x ha)]; simp]

/-! ### Lemmas: combination counting -/

lemma list_sum_map_le {l : List Nat} {f g : Nat → Nat}
    (h : ∀ i ∈ l, f i ≤ g i) : (l.map f).sum ≤ (l.map g).sum := by
  induction l with
  | nil => exact le_refl 0
  | cons a as ih =>
    simp only [List.map_cons, List.sum_cons]
    exact Nat.add_le_add (h a (List.mem_cons_self a as))
      (ih fun i hi => h i (List.mem_cons_of_mem a hi))

/-- The hockey-stick step that counts the source's combination recursion. -/
lemma sum_range_choose_eq (s : Nat) :
    ∀ L : Nat,
      ((List.range (L + 1 - (s + 2))).map fun i =>
        (L - 1 - i).choose (s + 1)).sum = L.choose (s + 2) := by
  intro L
  induction L with
  | zero => simp
  | succ L ih =>
    by_cases hL : L + 1 < s + 2
    · have h1 : L + 1 + 1 - (s + 2) = 0 := by omega
      rw [h1]
      simp [Nat.choose_eq_zero_of_lt hL]
    · have h1 : L + 1 + 1 - (s + 2) = (L + 1 - (s + 2)) + 1 := by omega
      rw [h1, List.range_succ_eq_map, List.map_cons, List.map_map, List.sum_cons]
      have h2 : ((L + 1 - 1 - 0).choose (s + 1)) = L.choose (s + 1) := by
        norm_num
      have h3 : ((fun i => (L + 1 - 1 - i).choose (s + 1)) ∘ Nat.succ)
          = fun i => (L - 1 - i).choose (s + 1) := by
        funext i
        show (L + 1 - 1 - (i + 1)).choose (s + 1) = (L - 1 - i).choose (s + 1)
        congr 1
        omega
      rw [h2, h3, ih, Nat.choose_succ_succ' L (s + 1)]

lemma getD_mem_of_lt [Inhabited α] {l : List α} {i : Nat} (h : i < l.length) :
    l.getD i default ∈ l := by
  rw [List.getD_eq_getElem?_getD, List.getElem?_eq_getElem h]
  exact List.getElem_mem h

lemma getCombinations_length [Inhabited α] :
    ∀ (s : Nat) (arr : List α),
      (getCombinations arr (s + 1)).length = arr.length.choose (s + 1) := by
  intro s
  induction s with
  | zero => intro arr; simp [getCombinations]
  | succ s ih =>
    intro arr
    show ((List.range (arr.length + 1 - (s + 2))).flatMap _).length = _
    rw [List.length_flatMap]
    have h1 : ∀ i ∈ List.range (arr.length + 1 - (s + 2)),
        ((getCombinations (arr.drop (i + 1)) (s + 1)).map
          fun tail => arr.getD i default :: tail).length
          = (arr.length - 1 - i).choose (s + 1) := by
      intro i _
      rw [List.length_map, ih, List.length_drop]
      congr 1
      omega
    calc ((List.range (arr.length + 1 - (s + 2))).map _).sum
        = ((List.range (arr.length + 1 - (s + 2))).map fun i =>
            (arr.length - 1 - i).choose (s + 1)).sum := by
          exact congrArg List.sum (List.map_congr_left h1)
      _ = arr.length.choose (s + 2) := sum_range_choose_eq s arr.length

lemma mem_getCombinations_props [Inhabited α] :
    ∀ (s : Nat) (arr : List α) (g : List α),
      g ∈ getCombinations arr (s + 1) →
      g.length = s + 1 ∧ ∀ x ∈ g, x ∈ arr := by
  intro s
  induction s with
  | zero =>
    intro arr g hg
    simp only [getCombinations, List.mem_map] at hg
    obtain ⟨a, ha, rfl⟩ := hg
    exact ⟨rfl, fun x hx => by rwa [List.mem_singleton.mp hx]⟩
  | succ s ih =>
    intro arr g hg
    simp only [getCombinations, List.mem_flatMap, List.mem_map,
      List.mem_range] at hg
    obtain ⟨i, hi, tail, htail, rfl⟩ := hg
    have hiL : i < arr.length := by omega
    obtain ⟨hlen, helem⟩ := ih (arr.drop (i + 1)) tail htail
    refine ⟨by simp [hlen], ?_⟩
    intro x hx
    rcases List.mem_cons.mp hx with rfl | hx'
    · exact getD_mem_of_lt hiL
    · exact List.drop_subset _ _ (helem x hx')

/-! ### Lemmas: the combination weight -/

lemma comboWeight_zero_of_lt {c : Nat} (h : c < 3) : comboWeight c = 0 := by
  unfold comboWeight
  have : c + 1 - 3 = 0 := by omega
  rw [this]
  rfl

lemma comboWeight_succ_le (c : Nat) : comboWeight c ≤ comboWeight (c + 1) := by
  by_cases hc : c < 3
  · rw [comboWeight_zero_of_lt hc]
    exact Nat.zero_le _
  · unfold comboWeight
    have h1 : c + 1 + 1 - 3 = (c + 1 - 3) + 1 := by omega
    rw [h1, List.range'_concat]
    rw [List.map_append, List.sum_append]
    refine le_trans (list_sum_map_le ?_) (Nat.le_add_right _ _)
    intro s _
    exact Nat.mul_le_mul_right s (Nat.choose_le_choose s (Nat.le_succ c))

lemma comboWeight_mono {c d : Nat} (h : c ≤ d) :
    comboWeight c ≤ comboWeight d := by
  induction h with
  | refl => exact le_refl _
  | @step m _ ih => exact le_trans ih (comboWeight_succ_le m)

/-! ### Lemmas: the group scorer -/

lemma groupForCombo_spec {tiles : List Tile} :
    ∀ {combination : List String},
      (∀ c ∈ combination, ∃ t ∈ tiles, t.color = c) →
      (groupForCombo tiles combination).length = combination.length ∧
        ∀ t' ∈ groupForCombo tiles combination, t' ∈ tiles := by
  intro combination
  induction combination with
  | nil => exact fun _ => ⟨rfl, by simp [groupForCombo]⟩
  | cons c cs ih =>
    intro h
    obtain ⟨t, ht, htc⟩ := h c (List.mem_cons_self c cs)
    have htf : t ∈ tiles.filter fun t' => t'.color == c :=
      List.mem_filter.mpr ⟨ht, by simp [htc]⟩
    obtain ⟨hlen, helem⟩ := ih fun c' hc' => h c' (List.mem_cons_of_mem c hc')
    cases hh : (tiles.filter fun t' => t'.color == c).head? with
    | none =>
      rw [List.head?_eq_none_iff] at hh
      rw [hh] at htf
      cases htf
    | some t0 =>
      have ht0 : t0 ∈ tiles :=
        List.mem_of_mem_filter (List.mem_of_mem_head? (by rw [hh]; rfl))
      constructor
      · show (groupForCombo tiles (c :: cs)).length = cs.length + 1
        simp only [groupForCombo, List.flatMap_cons, hh]
        simpa [groupForCombo] using hlen
      · intro t' ht'
        simp only [groupForCombo, List.flatMap_cons, hh,
          List.cons_append, List.nil_append, List.mem_cons] at ht'
        rcases ht' with rfl | ht'
        · exact ht0
        · exact helem t' (by simpa [groupForCombo] using ht')

lemma foldl_group_add {gs : List (List Tile)} :
    ∀ {acc : Nat}, (∀ g ∈ gs, 3 ≤ g.length) →
      gs.foldl
        (fun a g =>
          if 3 ≤ g.length then a + (g.headD default).number * g.length else a)
        acc
      = acc + (gs.map fun g => (g.headD default).number * g.length).sum := by
  induction gs with
  | nil => intro acc _; simp
  | cons g gs ih =>
    intro acc h
    rw [List.foldl_cons, if_pos (h g (List.mem_cons_self g gs)),
      ih fun g' hg' => h g' (List.mem_cons_of_mem g hg'), List.map_cons,
      List.sum_cons]
    omega

lemma mem_findValidGroups_three {tiles : List Tile} {g : List Tile}
    (hg : g ∈ findValidGroups tiles) : 3 ≤ g.length := by
  unfold findValidGroups at hg
  split at hg
  · cases hg
  · simp only [List.mem_flatMap, List.mem_filterMap] at hg
    obtain ⟨size, _, combo, _, hF⟩ := hg
    split at hF
    · exact (Option.some_inj.mp hF) ▸ (by assumption)
    · cases hF

lemma sum_map_flatMap (l : List Nat) (f : Nat → List (List Tile))
    (w : List Tile → Nat) :
    ((l.flatMap f).map w).sum = (l.map fun a => ((f a).map w).sum).sum := by
  induction l with
  | nil => rfl
  | cons a as ih =>
    simp only [List.flatMap_cons, List.map_append, List.sum_append,
      List.map_cons, List.sum_cons, ih]

lemma filterMap_eq_map_of_some {l : List (List String)}
    {F : List String → Option (List Tile)} {G : List String → List Tile}
    (h : ∀ a ∈ l, F a = some (G a)) : l.filterMap F = l.map G := by
  induction l with
  | nil => rfl
  | cons a as ih =>
    rw [List.filterMap_cons, h a (List.mem_cons_self a as), List.map_cons,
      ih fun a' ha' => h a' (List.mem_cons_of_mem a ha')]

lemma list_sum_map_mul_left (l : List Nat) (k : Nat) (f : Nat → Nat) :
    (l.map fun s => k * f s).sum = k * (l.map f).sum := by
  induction l with
  | nil => simp
  | cons a as ih =>
    simp only [List.map_cons, List.sum_cons, ih, Nat.mul_add]

lemma list_sum_map_const {α : Type} (l : List α) (k : Nat) :
    (l.map fun _ => k).sum = l.length * k := by
  induction l with
  | nil => simp
  | cons a as ih =>
    simp only [List.map_cons, List.sum_cons, ih, List.length_cons]
    ring

/-- On tiles of a single face value `v`, the group scorer awards `v` times
`comboWeight c`, where `c` is the number of distinct colors present. -/
lemma findValidGroups_sum_uniform {tiles : List Tile} {v : Nat}
    (h : ∀ t ∈ tiles, t.number = v) :
    ((findValidGroups tiles).map fun g => (g.headD default).number * g.length).sum
      = v * comboWeight ((firstDedup (tiles.map (·.color))).length) := by
  by_cases hlt : tiles.length < 3
  · rw [findValidGroups, if_pos hlt]
    have hc : (firstDedup (tiles.map (·.color))).length < 3 :=
      lt_of_le_of_lt
        (le_trans (firstDedup_length_le _) (by rw [List.length_map]))
        hlt
    rw [comboWeight_zero_of_lt hc]
    simp
  · rw [findValidGroups, if_neg hlt]
    set uc := firstDedup (tiles.map (·.color)) with huc
    set c := uc.length with hc
    rw [sum_map_flatMap]
    have hinner : ∀ size ∈ List.range' 3 (c + 1 - 3),
        ((((getCombinations uc size).filterMap fun combination =>
            let group := groupForCombo tiles combination
            if 3 ≤ group.length then some group else none).map
          fun g => (g.headD default).number * g.length).sum)
          = v * (c.choose size * size) := by
      intro size hsize
      rw [List.mem_range'_1] at hsize
      obtain ⟨s', rfl⟩ : ∃ s', size = s' + 1 := ⟨size - 1, by omega⟩
      have hcombo : ∀ combo ∈ getCombinations uc (s' + 1),
          (groupForCombo tiles combo).length = s' + 1 ∧
            ∀ t' ∈ groupForCombo tiles combo, t' ∈ tiles := by
        intro combo hcm
        obtain ⟨hclen, hcel⟩ := mem_getCombinations_props s' uc combo hcm
        refine hclen ▸ groupForCombo_spec ?_
        intro col hcol
        have : col ∈ tiles.map (·.color) := mem_firstDedup.mp (hcel col hcol)
        obtain ⟨t, ht, rfl⟩ := List.mem_map.mp this
        exact ⟨t, ht, rfl⟩
      have hsome : ∀ combo ∈ getCombinations uc (s' + 1),
          (fun combination =>
            let group := groupForCombo tiles combination
            if 3 ≤ group.length then some group else none) combo
            = some (groupForCombo tiles combo) := by
        intro combo hcm
        have hglen := (hcombo combo hcm).1
        show (if 3 ≤ (groupForCombo tiles combo).length
            then some (groupForCombo tiles combo) else none)
          = some (groupForCombo tiles combo)
        rw [hglen, if_pos hsize.1]
      rw [filterMap_eq_map_of_some hsome]
      have hpt : ∀ combo ∈ getCombinations uc (s' + 1),
          ((groupForCombo tiles combo).headD default).number
              * (groupForCombo tiles combo).length
            = v * (s' + 1) := by
        intro combo hcm
        obtain ⟨hglen, hgel⟩ := hcombo combo hcm
        have hne : groupForCombo tiles combo ≠ [] := by
          intro hnil
          rw [hnil] at hglen
          simp at hglen
        have hhead : (groupForCombo tiles combo).headD default
            ∈ groupForCombo tiles combo := by
          cases hg : groupForCombo tiles combo with
          | nil => exact absurd hg hne
          | cons a as => exact List.mem_cons_self a as
        rw [hglen, h _ (hgel _ hhead)]
      rw [List.map_map]
      calc ((getCombinations uc (s' + 1)).map
            ((fun g => (g.headD default).number * g.length)
              ∘ groupForCombo tiles)).sum
          = ((getCombinations uc (s' + 1)).map fun _ => v * (s' + 1)).sum :=
            congrArg List.sum (List.map_congr_left hpt)
        _ = (getCombinations uc (s' + 1)).length * (v * (s' + 1)) :=
            list_sum_map_const _ _
        _ = v * (c.choose (s' + 1) * (s' + 1)) := by
            rw [getCombinations_length s' uc]
            ring
    calc ((List.range' 3 (c + 1 - 3)).map _).sum
        = ((List.range' 3 (c + 1 - 3)).map fun size =>
            v * (c.choose size * size)).sum :=
          congrArg List.sum (List.map_congr_left hinner)
      _ = v * comboWeight c := by
          rw [comboWeight, list_sum_map_mul_left]

/-- The group score on a uniform-value tile list, in closed form. -/
lemma calculateGroupScore_uniform {tiles : List Tile} {v : Nat}
    (h : ∀ t ∈ tiles, t.number = v) (x : Nat) :
    calculateGroupScore tiles x
      = v * comboWeight ((firstDedup (tiles.map (·.color))).length) := by
  cases htiles : tiles with
  | nil => simp [calculateGroupScore, firstDedup, firstDedupAux, comboWeight]
  | cons t0 ts =>
    rw [← htiles]
    have hne : tiles.map (·.number) ≠ [] := by
      rw [htiles]; simp
    have hnum : firstDedup (tiles.map (·.number)) = [v] :=
      firstDedup_uniform hne fun a ha => by
        obtain ⟨t, ht, rfl⟩ := List.mem_map.mp ha
        exact h t ht
    rw [calculateGroupScore, hnum]
    have hfil : (tiles.filter fun t => t.number == v) = tiles :=
      List.filter_eq_self.mpr fun t ht => by simp [h t ht]
    rw [List.foldl_cons, List.foldl_nil, hfil,
      foldl_group_add fun g hg => mem_findValidGroups_three hg,
      Nat.zero_add]
    exact findValidGroups_sum_uniform h

/-- Group score is monotone under sublists of uniform-value tile lists. -/
lemma calculateGroupScore_mono {tiles₁ tiles₂ : List Tile} {v : Nat}
    (hsub : tiles₁.Sublist tiles₂) (h : ∀ t ∈ tiles₂, t.number = v) (x : Nat) :
    calculateGroupScore tiles₁ x ≤ calculateGroupScore tiles₂ x := by
  rw [calculateGroupScore_uniform (fun t ht => h t (hsub.mem ht)) x,
    calculateGroupScore_uniform h x]
  refine Nat.mul_le_mul_left v (comboWeight_mono ?_)
  rw [firstDedup_length_card, firstDedup_length_card]
  refine Finset.card_le_card ?_
  intro col hcol
  rw [List.mem_toFinset] at hcol ⊢
  exact (hsub.map (·.color)).mem hcol

/-! ### Lemmas: remaining tiles -/

lemma getRemainingTiles_number {hand : List Tile} {value : Nat}
    {runs : List RunState} :
    ∀ t ∈ getRemainingTiles hand value runs, t.number = value := by
  intro t ht
  simp only [getRemainingTiles, List.mem_flatMap] at ht
  obtain ⟨p, _, hdrop⟩ := ht
  have hfil := List.drop_subset _ _ hdrop
  have := List.mem_filter.mp hfil
  have hb := this.2
  simp only [Bool.and_eq_true, beq_iff_eq] at hb
  exact hb.1

lemma flatMap_sublist {β : Type} {l : List β} {f g : β → List Tile}
    (h : ∀ b ∈ l, (f b).Sublist (g b)) :
    (l.flatMap f).Sublist (l.flatMap g) := by
  induction l with
  | nil => exact List.Sublist.refl []
  | cons b bs ih =>
    simp only [List.flatMap_cons]
    exact (h b (List.mem_cons_self b bs)).append
      (ih fun b' hb' => h b' (List.mem_cons_of_mem b hb'))

lemma getRemainingTiles_sublist {hand hand' : List Tile}
    (hsub : hand.Sublist hand') (value : Nat) (runs : List RunState) :
    (getRemainingTiles hand value runs).Sublist
      (getRemainingTiles hand' value runs) := by
  unfold getRemainingTiles
  exact flatMap_sublist fun p _ => (hsub.filter _).drop _

lemma countTiles_mono {hand hand' : List Tile} (hsub : hand.Sublist hand')
    (value : Nat) (suit : String) :
    countTiles hand value suit ≤ countTiles hand' value suit :=
  (hsub.filter _).length_le

lemma forall₂_map_le {f g : String → Nat} (h : ∀ s, f s ≤ g s) :
    ∀ l : List String, List.Forall₂ (· ≤ ·) (l.map f) (l.map g) := by
  intro l
  induction l with
  | nil => exact List.Forall₂.nil
  | cons s ss ih => exact List.Forall₂.cons (h s) ih

/-! ### Lemmas: the plain recursion -/

lemma maxScoreGo_eq_pure {hand : List Tile} :
    ∀ fuel value runs, maxTileValue + 1 - value ≤ fuel →
      maxScoreGo hand fuel value runs = maxScorePure hand value runs := by
  intro fuel
  induction fuel using Nat.strong_induction_on with
  | _ fuel ih =>
    intro value runs hfuel
    have hm : maxTileValue = 13 := rfl
    cases fuel with
    | zero =>
      have (hv : 14 ≤ value) : maxTileValue + 1 - value = 0 := by omega
      rw [maxScorePure, this (by omega)]
    | succ fuel =>
      by_cases hv : maxTileValue < value
      · have h0 : maxTileValue + 1 - value = 0 := by omega
        rw [maxScorePure, h0]
        simp only [maxScoreGo]
        rw [if_pos hv]
      · have h1 : maxTileValue + 1 - value = (maxTileValue - value) + 1 := by
          omega
        rw [maxScorePure, h1]
        simp only [maxScoreGo]
        rw [if_neg hv, if_neg hv]
        congr 1
        refine List.map_congr_left fun cfg _ => ?_
        have hrec : maxTileValue + 1 - (value + 1) ≤ fuel := by omega
        have hrec' : maxTileValue + 1 - (value + 1) ≤ maxTileValue - value := by
          omega
        have hlt' : maxTileValue - value < fuel + 1 := by omega
        rw [ih fuel (Nat.lt_succ_self fuel) (value + 1) cfg.runs hrec,
          ih (maxTileValue - value) hlt' (value + 1) cfg.runs hrec']

lemma maxScoreGo_nonneg {hand : List Tile} :
    ∀ fuel value runs, 1 ≤ value → (∀ r ∈ runs, r ≤ 3) →
      0 ≤ maxScoreGo hand fuel value runs := by
  intro fuel
  induction fuel with
  | zero => intro value runs _ _; exact le_refl 0
  | succ fuel ih =>
    intro value runs hv hruns
    rw [maxScoreGo]
    split
    · exact le_refl 0
    · obtain ⟨cfg, hcfg⟩ := generateRunCombinations_mem_exists value runs
        (suits.map fun s => countTiles hand value s)
      obtain ⟨hcruns, hcscore⟩ :=
        mem_generateRunCombinations_props hcfg hruns hv
      refine le_trans ?_ (le_jsMaxFold (List.mem_map.mpr ⟨cfg, hcfg, rfl⟩))
      have hg : (0 : Int)
          ≤ (calculateGroupScore (getRemainingTiles hand value cfg.runs) value : Int) :=
        Int.natCast_nonneg _
      have hf : 0 ≤ maxScoreGo hand fuel (value + 1) cfg.runs :=
        ih (value + 1) cfg.runs (by omega) hcruns
      linarith

lemma maxScoreGo_mono {hand hand' : List Tile} (hsub : hand.Sublist hand') :
    ∀ fuel value runs,
      maxScoreGo hand fuel value runs ≤ maxScoreGo hand' fuel value runs := by
  intro fuel
  induction fuel with
  | zero => intro value runs; exact le_refl 0
  | succ fuel ih =>
    intro value runs
    rw [maxScoreGo, maxScoreGo]
    split
    · exact le_refl 0
    · have hne : (makeRuns hand runs value).map
          (fun cfg =>
            (calculateGroupScore (getRemainingTiles hand value cfg.runs) value : Int)
              + cfg.score + maxScoreGo hand fuel (value + 1) cfg.runs) ≠ [] := by
        simp only [ne_eq, List.map_eq_nil_iff]
        exact makeRuns_ne_nil hand runs value
      refine jsMaxFold_le hne ?_
      intro x hx
      obtain ⟨cfg, hcfg, rfl⟩ := List.mem_map.mp hx
      have hcfg' : cfg ∈ makeRuns hand' runs value := by
        unfold makeRuns at hcfg ⊢
        exact mem_generateRunCombinations_mono
          (forall₂_map_le (fun s => countTiles_mono hsub value s) suits)
          runs cfg hcfg
      refine le_trans ?_ (le_jsMaxFold (List.mem_map.mpr ⟨cfg, hcfg', rfl⟩))
      have hgs : (calculateGroupScore (getRemainingTiles hand value cfg.runs) value : Int)
          ≤ (calculateGroupScore (getRemainingTiles hand' value cfg.runs) value : Int) := by
        exact_mod_cast Nat.cast_le.mpr
          (calculateGroupScore_mono
            (getRemainingTiles_sublist hsub value cfg.runs)
            getRemainingTiles_number value)
      have hfs := ih (value + 1) cfg.runs
      linarith

lemma filter_eq_of_nonzero {hand₁ hand₂ : List Tile}
    (hf : (hand₁.filter fun t => !(t.number == 0))
        = (hand₂.filter fun t => !(t.number == 0)))
    {p : Tile → Bool} (hp : ∀ t, p t = true → t.number ≠ 0) :
    hand₁.filter p = hand₂.filter p := by
  have key : ∀ hand : List Tile,
      hand.filter p = (hand.filter fun t => !(t.number == 0)).filter p := by
    intro hand
    rw [List.filter_filter]
    refine (List.filter_congr fun t _ => ?_).symm
    by_cases hpt : p t = true
    · have := hp t hpt
      simp [hpt, this]
    · simp only [Bool.not_eq_true] at hpt
      simp [hpt]
  rw [key hand₁, key hand₂, hf]

lemma maxScoreGo_congr_nonzero {hand₁ hand₂ : List Tile}
    (hf : (hand₁.filter fun t => !(t.number == 0))
        = (hand₂.filter fun t => !(t.number == 0))) :
    ∀ fuel value runs, 1 ≤ value →
      maxScoreGo hand₁ fuel value runs = maxScoreGo hand₂ fuel value runs := by
  have hfil : ∀ (value : Nat) (suit : String), 1 ≤ value →
      (hand₁.filter fun t => t.number == value && t.color == suit)
        = (hand₂.filter fun t => t.number == value && t.color == suit) := by
    intro value suit hv
    refine filter_eq_of_nonzero hf fun t ht => ?_
    simp only [Bool.and_eq_true, beq_iff_eq] at ht
    omega
  have hcount : ∀ (value : Nat), 1 ≤ value →
      countTiles hand₁ value = countTiles hand₂ value := by
    intro value hv
    funext suit
    unfold countTiles
    rw [hfil value suit hv]
  have hrem : ∀ (value : Nat) (runs : List RunState), 1 ≤ value →
      getRemainingTiles hand₁ value runs = getRemainingTiles hand₂ value runs := by
    intro value runs hv
    unfold getRemainingTiles
    congr 1
    funext p
    rw [hfil value p.1 hv]
  intro fuel
  induction fuel with
  | zero => intro value runs _; rfl
  | succ fuel ih =>
    intro value runs hv
    rw [maxScoreGo, maxScoreGo]
    by_cases hv13 : maxTileValue < value
    · rw [if_pos hv13, if_pos hv13]
    · rw [if_neg hv13, if_neg hv13]
      have hmk : makeRuns hand₁ runs value = makeRuns hand₂ runs value := by
        unfold makeRuns
        simp only [hcount value hv]
      rw [hmk]
      refine congrArg jsMaxFold (List.map_congr_left fun cfg _ => ?_)
      rw [hrem value cfg.runs hv, ih (value + 1) cfg.runs (by omega)]

/-! ### Lemmas: the memoized walk refines the plain recursion -/

lemma memoLookup_eq_none {key : Nat × List RunState} :
    ∀ {memo : Memo}, memoLookup key memo = none ↔ ∀ e ∈ memo, e.1 ≠ key := by
  intro memo
  induction memo with
  | nil => simp [memoLookup]
  | cons e rest ih =>
    obtain ⟨k, v⟩ := e
    by_cases hk : k = key
    · subst hk
      simp [memoLookup]
    · simp only [memoLookup, if_neg hk, ih, List.mem_cons]
      constructor
      · rintro h e' (rfl | he')
        · exact hk
        · exact h e' he'
      · intro h e' he'
        exact h e' (Or.inr he')

lemma memoLookup_some_mem {key : Nat × List RunState} {s : Int} :
    ∀ {memo : Memo}, memoLookup key memo = some s → (key, s) ∈ memo := by
  intro memo
  induction memo with
  | nil => intro h; cases h
  | cons e rest ih =>
    obtain ⟨k, v⟩ := e
    intro h
    by_cases hk : k = key
    · subst hk
      rw [memoLookup, if_pos rfl] at h
      obtain rfl := Option.some_inj.mp h
      exact List.mem_cons_self _ _
    · rw [memoLookup, if_neg hk] at h
      exact List.mem_cons_of_mem _ (ih h)

/-- The per-configuration loop preserves memo soundness, preserves existing
entries, adds keys only at `value + 1` and above, and produces exactly the
plain-recursion totals, provided the recursion `next` it is given does. -/
lemma scoreConfigs_spec {hand : List Tile} {value : Nat}
    {next : List RunState → Memo → Int × Memo}
    (hnext : ∀ runs memo, MemoOK hand memo →
      (next runs memo).1 = maxScorePure hand (value + 1) runs ∧
      MemoOK hand (next runs memo).2 ∧
      (∀ e ∈ memo, e ∈ (next runs memo).2) ∧
      (∀ e ∈ (next runs memo).2, e ∈ memo ∨ value + 1 ≤ e.1.1)) :
    ∀ (configs : List RunConfiguration) (memo : Memo), MemoOK hand memo →
      (scoreConfigs hand value next configs memo).1
        = configs.map (fun cfg =>
            (calculateGroupScore (getRemainingTiles hand value cfg.runs) value : Int)
              + cfg.score + maxScorePure hand (value + 1) cfg.runs) ∧
      MemoOK hand (scoreConfigs hand value next configs memo).2 ∧
      (∀ e ∈ memo, e ∈ (scoreConfigs hand value next configs memo).2) ∧
      (∀ e ∈ (scoreConfigs hand value next configs memo).2,
        e ∈ memo ∨ value + 1 ≤ e.1.1) := by
  intro configs
  induction configs with
  | nil =>
    intro memo hOK
    exact ⟨rfl, hOK, fun e he => he, fun e he => Or.inl he⟩
  | cons cfg rest ih =>
    intro memo hOK
    obtain ⟨hv1, hOK1, hkeep1, hnew1⟩ := hnext cfg.runs memo hOK
    obtain ⟨hv2, hOK2, hkeep2, hnew2⟩ := ih (next cfg.runs memo).2 hOK1
    refine ⟨?_, hOK2, ?_, ?_⟩
    · show (_ :: (scoreConfigs hand value next rest (next cfg.runs memo).2).1) = _
      rw [List.map_cons, hv2, hv1]
    · intro e he
      exact hkeep2 e (hkeep1 e he)
    · intro e he
      rcases hnew2 e he with he' | hge
      · rcases hnew1 e he' with he'' | hge'
        · exact Or.inl he''
        · exact Or.inr hge'
      · exact Or.inr hge

/-- The memoized walk computes the plain recursion, keeps the table sound,
never discards entries, and adds keys only at the current value and above. -/
lemma maxScoreM_spec {hand : List Tile} :
    ∀ (fuel value : Nat) (runs : List RunState) (memo : Memo),
      maxTileValue + 1 - value ≤ fuel → MemoOK hand memo →
      (maxScoreM hand fuel value runs memo).1 = maxScorePure hand value runs ∧
      MemoOK hand (maxScoreM hand fuel value runs memo).2 ∧
      (∀ e ∈ memo, e ∈ (maxScoreM hand fuel value runs memo).2) ∧
      (∀ e ∈ (maxScoreM hand fuel value runs memo).2,
        e ∈ memo ∨ value ≤ e.1.1) := by
  intro fuel
  have hm : maxTileValue = 13 := rfl
  induction fuel with
  | zero =>
    intro value runs memo hfuel hOK
    have h0 : maxTileValue + 1 - value = 0 := by omega
    refine ⟨?_, hOK, fun e he => he, fun e he => Or.inl he⟩
    rw [maxScorePure, h0]
    rfl
  | succ fuel ih =>
    intro value runs memo hfuel hOK
    by_cases hv : maxTileValue < value
    · have h0 : maxTileValue + 1 - value = 0 := by omega
      rw [maxScoreM, if_pos hv]
      refine ⟨?_, hOK, fun e he => he, fun e he => Or.inl he⟩
      rw [maxScorePure, h0]
      rfl
    · rw [maxScoreM, if_neg hv]
      cases hml : memoLookup (value, runs) memo with
      | some s =>
        have hsmem := memoLookup_some_mem hml
        have hs : s = maxScorePure hand value runs := hOK.1 _ hsmem
        exact ⟨hs, hOK, fun e he => he, fun e he => Or.inl he⟩
      | none =>
        have hnext : ∀ (runs' : List RunState) (memo' : Memo),
            MemoOK hand memo' →
            (maxScoreM hand fuel (value + 1) runs' memo').1
              = maxScorePure hand (value + 1) runs' ∧
            MemoOK hand (maxScoreM hand fuel (value + 1) runs' memo').2 ∧
            (∀ e ∈ memo', e ∈ (maxScoreM hand fuel (value + 1) runs' memo').2) ∧
            (∀ e ∈ (maxScoreM hand fuel (value + 1) runs' memo').2,
              e ∈ memo' ∨ value + 1 ≤ e.1.1) := by
          intro runs' memo' hOK'
          exact ih (value + 1) runs' memo' (by omega) hOK'
        obtain ⟨hB1, hB2, hB3, hB4⟩ :=
          scoreConfigs_spec hnext (makeRuns hand runs value) memo hOK
        have hpure : maxScorePure hand value runs
            = jsMaxFold ((scoreConfigs hand value
                (fun r m => maxScoreM hand fuel (value + 1) r m)
                (makeRuns hand runs value) memo).1) := by
          rw [hB1, maxScorePure]
          have h1 : maxTileValue + 1 - value = (maxTileValue - value) + 1 := by
            omega
          rw [h1]
          simp only [maxScoreGo]
          rw [if_neg hv]
          refine congrArg jsMaxFold (List.map_congr_left fun cfg _ => ?_)
          rw [maxScoreGo_eq_pure (maxTileValue - value) (value + 1) cfg.runs
            (by omega)]
        have hkey : ∀ e ∈ (scoreConfigs hand value
            (fun r m => maxScoreM hand fuel (value + 1) r m)
            (makeRuns hand runs value) memo).2, e.1 ≠ (value, runs) := by
          intro e he
          rcases hB4 e he with he' | hge
          · exact (memoLookup_eq_none.mp hml) e he'
          · intro hkeyeq
            rw [hkeyeq] at hge
            simp at hge
        refine ⟨hpure.symm, ⟨?_, ?_⟩, ?_, ?_⟩
        · intro e he
          rcases List.mem_cons.mp he with rfl | he'
          · exact hpure.symm
          · exact hB2.1 e he'
        · rw [List.map_cons]
          refine List.nodup_cons.mpr ⟨?_, hB2.2⟩
          intro hmem
          obtain ⟨e, he, hekey⟩ := List.mem_map.mp hmem
          exact hkey e he hekey
        · intro e he
          exact List.mem_cons_of_mem _ (hB3 e he)
        · intro e he
          rcases List.mem_cons.mp he with rfl | he'
          · exact Or.inr (le_refl value)
          · rcases hB4 e he' with he'' | hge
            · exact Or.inl he''
            · exact Or.inr (by omega)

/-- The memoized entry point agrees with the plain recursion and its final
table binds every key at most once. -/
lemma maxScoreM_top (hand : List Tile) :
    (maxScoreM hand (maxTileValue + 1) 1 [0, 0, 0, 0] []).1
      = maxScoreGo hand (maxTileValue + 1) 1 [0, 0, 0, 0] ∧
    (((maxScoreM hand (maxTileValue + 1) 1 [0, 0, 0, 0] []).2.map
      Prod.fst)).Nodup := by
  have hOK : MemoOK hand [] := ⟨by simp, by simp⟩
  obtain ⟨h1, h2, _, _⟩ :=
    maxScoreM_spec (maxTileValue + 1) 1 [0, 0, 0, 0] [] (by norm_num) hOK
  refine ⟨?_, h2.2⟩
  rw [h1, maxScoreGo_eq_pure (maxTileValue + 1) 1 [0, 0, 0, 0] (by norm_num)]

/-! ### Lemmas: the public entry point -/

lemma solveRummikub_maxScore (gs : GameState) :
    (solveRummikub gs).maxScore
      = maxScoreGo (gs.handTiles ++ gs.tableTiles) (maxTileValue + 1) 1
          [0, 0, 0, 0] := by
  show (maxScoreM (gs.handTiles ++ gs.tableTiles) (maxTileValue + 1) 1
    [0, 0, 0, 0] []).1 = _
  exact (maxScoreM_top _).1

lemma solveRummikub_isSolvable (gs : GameState) :
    (solveRummikub gs).isSolvable
      = decide (4 * (totalTileValue (gs.handTiles ++ gs.tableTiles) : Int)
          ≤ 5 * maxScoreGo (gs.handTiles ++ gs.tableTiles) (maxTileValue + 1) 1
              [0, 0, 0, 0]) := by
  show decide (4 * (totalTileValue (gs.handTiles ++ gs.tableTiles) : Int)
      ≤ 5 * (maxScoreM (gs.handTiles ++ gs.tableTiles) (maxTileValue + 1) 1
          [0, 0, 0, 0] []).1) = _
  rw [(maxScoreM_top _).1]

lemma foldl_add_number (hand : List Tile) :
    ∀ a : Nat, hand.foldl (fun s t => s + t.number) a
      = a + (hand.map (·.number)).sum := by
  induction hand with
  | nil => intro a; simp
  | cons t ts ih =>
    intro a
    rw [List.foldl_cons, ih, List.map_cons, List.sum_cons]
    omega

lemma totalTileValue_eq_sum (hand : List Tile) :
    totalTileValue hand = (hand.map (·.number)).sum := by
  rw [totalTileValue, foldl_add_number, Nat.zero_add]

lemma sum_numbers_filter_nonzero (hand : List Tile) :
    (hand.map (·.number)).sum
      = ((hand.filter fun t => !(t.number == 0)).map (·.number)).sum := by
  induction hand with
  | nil => rfl
  | cons t ts ih =>
    by_cases h : t.number = 0
    · rw [List.map_cons, List.sum_cons, h, List.filter_cons,
        if_neg (by simp [h]), Nat.zero_add]
      exact ih
    · rw [List.map_cons, List.sum_cons, List.filter_cons, if_pos (by simp [h]),
        List.map_cons, List.sum_cons, ih]

/-! ### The claims -/

/-- C1, counterexample: on the hand `{Red 5, Red 6, Red 7}` (total face value
18), `solve` returns `maxScore = 39`, so `maxScore ≤ totalTileValue` fails:
the claimed upper bound does not hold on the code. -/
theorem c1_upper_bound_counterexample :
    (solveRummikub runHand).maxScore = 39 ∧
    totalTileValue (runHand.handTiles ++ runHand.tableTiles) = 18 ∧
    ¬((solveRummikub runHand).maxScore
        ≤ (totalTileValue (runHand.handTiles ++ runHand.tableTiles) : Int)) := by
  decide

/-- C1, amended: for every game state the `maxScore` field of the result of
`solve` is non-negative (the claimed lower bound `0 ≤ maxScore`; the upper
bound by `totalTileValue` is refuted by the counterexample). -/
theorem c1_maxScore_nonneg (gs : GameState) :
    0 ≤ (solveRummikub gs).maxScore := by
  rw [solveRummikub_maxScore]
  exact maxScoreGo_nonneg (maxTileValue + 1) 1 [0, 0, 0, 0] (le_refl 1)
    (by decide)

/-- C2, counterexample: at `v = 4`, ending a run whose state is "3-or-more"
awards `calculateRunScore 3 4 = 4 + 3 + 2 = 9`, not the claimed
`(v-1) + (v-2) + (v-3) = 3 + 2 + 1 = 6`. -/
theorem c2_completed_run_counterexample :
    calculateScoreIncrease 3 (calculateNewRunLength 3 0) 4
      ≠ ((4 : Int) - 1) + ((4 : Int) - 2) + ((4 : Int) - 3) := by
  decide

/-- C2, amended: for every face value `v`, when a suit whose incoming run
state is "3-or-more" consumes 0 tiles at `v`, the transition score is the sum
of the three consecutive face values ending at `v` itself —
`v + (v-1) + (v-2)` — because the source passes the current value `v`, not
`v-1`, as the run's end value. -/
theorem c2_completed_run_score (v : Nat) :
    calculateScoreIncrease 3 (calculateNewRunLength 3 0) v
      = (v : Int) + ((v : Int) - 1) + ((v : Int) - 2) := by
  have h0 : calculateNewRunLength 3 0 = 0 := rfl
  rw [h0]
  unfold calculateScoreIncrease
  rw [if_pos ⟨rfl, le_refl 3⟩]
  exact calculateRunScore_three v

/-- C3, counterexample: on the four leftover tiles
`{Red 5, Blue 5, Yellow 5, Black 5}` the group scorer awards 80, which
exceeds `v × (number of leftover tiles) = 5 × 4 = 20`: leftover tiles are
counted toward several overlapping groups, not at most one. -/
theorem c3_group_score_counterexample :
    calculateGroupScore [redFive, blueFive, yellowFive, blackFive] 5 = 80 ∧
    ¬(calculateGroupScore [redFive, blueFive, yellowFive, blackFive] 5
        ≤ 5 * [redFive, blueFive, yellowFive, blackFive].length) := by
  decide

/-- C3, amended: for every face value `v` and list of leftover tiles of value
`v`, the group score equals `v × setSize` summed over ALL size-≥3 subsets of
the `c` distinct suits present (one representative tile per suit), i.e.
`v · Σ_{s=3}^{c} C(c,s)·s`; overlapping subsets are all counted, so the score
may exceed `v` times the number of leftover tiles. -/
theorem c3_group_score_formula (v x : Nat) (tiles : List Tile)
    (h : ∀ t ∈ tiles, t.number = v) :
    calculateGroupScore tiles x
      = v * comboWeight ((firstDedup (tiles.map (·.color))).length) :=
  calculateGroupScore_uniform h x

/-- Witness for C3's amended theorem at the concrete four-suit input. -/
theorem c3_group_score_formula_witness :
    calculateGroupScore [redFive, blueFive, yellowFive, blackFive] 5
      = 5 * comboWeight ((firstDedup
          ([redFive, blueFive, yellowFive, blackFive].map (·.color))).length) :=
  c3_group_score_formula 5 5 [redFive, blueFive, yellowFive, blackFive]
    (by decide)

/-- C4, counterexample: on the hand `{Red 5, Red 6, Red 7}` with an empty
table, `solve` does not return `maxScore = 18`. -/
theorem c4_run_hand_counterexample :
    (solveRummikub runHand).maxScore ≠ 18 := by
  decide

/-- C4, amended: on the hand `{Red 5, Red 6, Red 7}` with an empty table,
`solve` returns `maxScore = 39` (the run is scored incrementally as
5 + 6 + 7 while it builds AND awarded a completed-run bonus of 8 + 7 + 6
when it ends at value 8) and `isSolvable = true`. -/
theorem c4_run_hand_result :
    (solveRummikub runHand).maxScore = 39 ∧
    (solveRummikub runHand).isSolvable = true := by
  decide

/-- C5, counterexample: on the hand `{Red 5, Blue 5, Yellow 5, Black 5}` with
an empty table, `solve` does not return `maxScore = 20`. -/
theorem c5_group_hand_counterexample :
    (solveRummikub groupHand).maxScore ≠ 20 := by
  decide

/-- C5, amended: on the hand `{Red 5, Blue 5, Yellow 5, Black 5}` with an
empty table, `solve` returns `maxScore = 80` (every size-3 and size-4 color
subset is scored: 4·(5·3) + 5·4 = 80) and `isSolvable = true`. -/
theorem c5_group_hand_result :
    (solveRummikub groupHand).maxScore = 80 ∧
    (solveRummikub groupHand).isSolvable = true := by
  decide

/-- C6, confirmed: for every game state, `solve` declares solvability exactly
when the computed best score reaches 0.8 of the total face value of all hand
and table tiles; the verdict depends on nothing else. -/
theorem c6_threshold_iff (gs : GameState) :
    (solveRummikub gs).isSolvable = true ↔
      (0.8 : ℚ) * (totalTileValue (gs.handTiles ++ gs.tableTiles) : ℚ)
        ≤ ((solveRummikub gs).maxScore : ℚ) := by
  rw [solveRummikub_isSolvable, solveRummikub_maxScore, decide_eq_true_iff]
  have h08 : (0.8 : ℚ) = 4 / 5 := by norm_num
  constructor
  · intro h
    have h' : (4 : ℚ) * (totalTileValue (gs.handTiles ++ gs.tableTiles) : ℚ)
        ≤ 5 * (maxScoreGo (gs.handTiles ++ gs.tableTiles) (maxTileValue + 1) 1
            [0, 0, 0, 0] : ℚ) := by
      exact_mod_cast h
    rw [h08]
    linarith
  · intro h
    rw [h08] at h
    have h' : (4 : ℚ) * (totalTileValue (gs.handTiles ++ gs.tableTiles) : ℚ)
        ≤ 5 * (maxScoreGo (gs.handTiles ++ gs.tableTiles) (maxTileValue + 1) 1
            [0, 0, 0, 0] : ℚ) := by
      linarith
    exact_mod_cast h'

/-- C7, confirmed: within one invocation of `solve`, the memoized walk
returns exactly the value of the plain (memo-free) recursion, and the final
memo table binds every visited `(value, run-state-vector)` key exactly once
(its key list has no duplicates). -/
theorem c7_memo_refines_plain (gs : GameState) :
    (maxScoreM (gs.handTiles ++ gs.tableTiles) (maxTileValue + 1) 1
        [0, 0, 0, 0] []).1
      = maxScoreGo (gs.handTiles ++ gs.tableTiles) (maxTileValue + 1) 1
          [0, 0, 0, 0] ∧
    (((maxScoreM (gs.handTiles ++ gs.tableTiles) (maxTileValue + 1) 1
        [0, 0, 0, 0] []).2.map Prod.fst)).Nodup :=
  maxScoreM_top (gs.handTiles ++ gs.tableTiles)

/-- C8, confirmed: appending any tile with face number in 1..13 to the hand
never decreases the `maxScore` returned by `solve` for the same table. -/
theorem c8_add_tile_monotone (hand table : List Tile) (t : Tile)
    (h1 : 1 ≤ t.number) (h13 : t.number ≤ 13) :
    (solveRummikub ⟨hand, table⟩).maxScore
      ≤ (solveRummikub ⟨hand ++ [t], table⟩).maxScore := by
  rw [solveRummikub_maxScore, solveRummikub_maxScore]
  have hsub : (hand ++ table).Sublist ((hand ++ [t]) ++ table) := by
    rw [List.append_assoc, List.singleton_append]
    exact (List.sublist_cons_self t table).append_left hand
  exact maxScoreGo_mono hsub (maxTileValue + 1) 1 [0, 0, 0, 0]

/-- Witness for C8 at a concrete input: adding Red 7 to `{Red 5, Red 6}`. -/
theorem c8_add_tile_monotone_witness :
    1 ≤ redSeven.number ∧ redSeven.number ≤ 13 ∧
    (solveRummikub ⟨[redFive, redSix], []⟩).maxScore
      ≤ (solveRummikub ⟨[redFive, redSix] ++ [redSeven], []⟩).maxScore :=
  ⟨by decide, by decide,
    c8_add_tile_monotone [redFive, redSix] [] redSeven (by decide) (by decide)⟩

/-- C9, confirmed: the result of `solve` does not depend on the instance
state left behind by earlier calls (the memo table is re-initialized at the
start of every `solve`), so identical inputs give identical results — in
particular a repeated call on the state produced by the first call. -/
theorem c9_solve_idempotent (st₁ st₂ : SolverInstance) (gs : GameState) :
    (solveImpl st₁ gs).1 = (solveImpl st₂ gs).1 ∧
    (solveImpl ((solveImpl st₁ gs).2) gs).1 = (solveImpl st₁ gs).1 :=
  ⟨rfl, rfl⟩

/-- C10, confirmed: two game states that differ only by tiles of face number
0 (wildcards/jokers) — i.e. whose hands and tables agree after discarding
number-0 tiles — receive the same `maxScore` and the same `isSolvable` from
`solve`: the walk over values 1..13 never consumes a number-0 tile and such
tiles add nothing to the total face value used by the threshold test. -/
theorem c10_wildcards_immaterial (gs gs' : GameState)
    (h1 : (gs'.handTiles.filter fun t => !(t.number == 0))
        = (gs.handTiles.filter fun t => !(t.number == 0)))
    (h2 : (gs'.tableTiles.filter fun t => !(t.number == 0))
        = (gs.tableTiles.filter fun t => !(t.number == 0))) :
    (solveRummikub gs').maxScore = (solveRummikub gs).maxScore ∧
    (solveRummikub gs').isSolvable = (solveRummikub gs).isSolvable := by
  have hcomb : ((gs'.handTiles ++ gs'.tableTiles).filter
      fun t => !(t.number == 0))
      = ((gs.handTiles ++ gs.tableTiles).filter fun t => !(t.number == 0)) := by
    rw [List.filter_append, List.filter_append, h1, h2]
  have hms : maxScoreGo (gs'.handTiles ++ gs'.tableTiles) (maxTileValue + 1) 1
      [0, 0, 0, 0]
      = maxScoreGo (gs.handTiles ++ gs.tableTiles) (maxTileValue + 1) 1
        [0, 0, 0, 0] :=
    maxScoreGo_congr_nonzero hcomb (maxTileValue + 1) 1 [0, 0, 0, 0]
      (le_refl 1)
  have htot : totalTileValue (gs'.handTiles ++ gs'.tableTiles)
      = totalTileValue (gs.handTiles ++ gs.tableTiles) := by
    rw [totalTileValue_eq_sum, totalTileValue_eq_sum,
      sum_numbers_filter_nonzero, sum_numbers_filter_nonzero
        (gs.handTiles ++ gs.tableTiles), hcomb]
  constructor
  · rw [solveRummikub_maxScore, solveRummikub_maxScore, hms]
  · rw [solveRummikub_isSolvable, solveRummikub_isSolvable, hms, htot]

/-- Witness for C10: inserting a Red joker (number 0) into the run hand
changes neither the best score nor the verdict. -/
theorem c10_wildcards_immaterial_witness :
    (solveRummikub ⟨[redFive, redJoker, redSix, redSeven], []⟩).maxScore
      = (solveRummikub runHand).maxScore ∧
    (solveRummikub ⟨[redFive, redJoker, redSix, redSeven], []⟩).isSolvable
      = (solveRummikub runHand).isSolvable :=
  c10_wildcards_immaterial runHand ⟨[redFive, redJoker, redSix, redSeven], []⟩
    (by decide) (by decide)

end Rummikub
